import Mathlib

set_option maxHeartbeats 1000000

/-!
Verification of the indexed record store in src/lib/model.ts.

The source is a thin CRUD layer over Deno KV.  We embed it shallowly:

* a stored record (a JavaScript object) is an association list from field
  names to values, with first-match lookup;
* a KV key, as built by this module, always has exactly two parts: a
  collection / index-keyspace name and a second part that is either a record
  id or an indexed field's value; the second part is an `Option String`
  because `value[field]` is `undefined` when the field is absent;
* the store is an association list from keys to stored values, with
  first-match lookup; `kvSet` removes any previous binding of the key, so
  every reachable store binds each key at most once;
* an atomic transaction (`kv.atomic().set/.delete ... .commit()`) is a list
  of mutations applied as one unit;
* `crypto.randomUUID()` is modelled by passing the generated id explicitly;
  freshness/distinctness of generated ids appears as hypotheses.
-/

namespace Kvx

/-- A JavaScript object: association list from field name to value,
first-match lookup. -/
abbrev Obj := List (String × String)

/-- Property read `o[f]`; an absent field reads as `undefined` (`none`). -/
def Obj.get (o : Obj) (f : String) : Option String :=
  (o.find? (fun p => p.1 == f)).map (fun p => p.2)

/-- The object `{ ...value, id }` built in `Model.create`: the `id` property
is written last so it overrides any `id` field of `value`; all other fields
read through to `value`.  With first-match lookup the override sits at the
head. -/
def withId (v : Obj) (i : String) : Obj := ("id", i) :: v

/-- A Deno KV key as used by this module (always two parts). -/
abbrev Key := String × Option String

/-- A value stored in KV by this module: a record object (primary entries)
or a record id string (index entries). -/
inductive KvValue
  | obj (r : Obj)
  | str (s : String)
deriving DecidableEq

/-- The KV store contents. -/
abbrev Store := List (Key × KvValue)

/-- `kv.get`: `none` models a lookup whose entry value is `null`. -/
def kvGet (s : Store) (k : Key) : Option KvValue :=
  (s.find? (fun e => e.1 == k)).map (fun e => e.2)

/-- `kv.set` (also the effect of an atomic `set` mutation). -/
def kvSet (s : Store) (k : Key) (v : KvValue) : Store :=
  (k, v) :: s.filter (fun e => e.1 != k)

/-- `kv.delete` (the effect of an atomic `delete` mutation). -/
def kvDelete (s : Store) (k : Key) : Store :=
  s.filter (fun e => e.1 != k)

/-- One mutation of an atomic transaction. -/
inductive Mutation
  | set (k : Key) (v : KvValue)
  | del (k : Key)
deriving DecidableEq

/-- The key a mutation touches. -/
def Mutation.mkey : Mutation → Key
  | .set k _ => k
  | .del k => k

/-- Apply one mutation to the store. -/
def applyMut (s : Store) : Mutation → Store
  | .set k v => kvSet s k v
  | .del k => kvDelete s k

/-- Atomic commit: the mutations applied as one unit. -/
def commit (ms : List Mutation) (s : Store) : Store :=
  ms.foldl applyMut s

/-- `Deno.KvCommitResult`; the versionstamp plays no role here. -/
structure CommitResult where
  ok : Bool
deriving DecidableEq

/-- A model: the collection key prefix and the declared indexed field names.
The zod schema takes no part in the data-path code and is omitted. -/
structure Model where
  key : String
  indexes : List String

/-- The mutation list `Model.create` accumulates: `kv.atomic().set(key, data)`
followed by one `.set([key + "_by_" + index, value[index]], id)` per declared
index, in declaration order. -/
def Model.createMuts (m : Model) (i : String) (v : Obj) : List Mutation :=
  m.indexes.foldl
    (fun op f => op ++ [Mutation.set (m.key ++ "_by_" ++ f, v.get f) (.str i)])
    [Mutation.set (m.key, some i) (.obj (withId v i))]

/-- `Model.create` (src/lib/model.ts:246-265): one atomic commit of the
primary write and all index writes; returns the commit result.  The fresh
UUID is the explicit argument `i`. -/
def Model.create (m : Model) (s : Store) (i : String) (v : Obj) : Store × CommitResult :=
  (commit (m.createMuts i v) s, ⟨true⟩)

/-- `Model.find` (src/lib/model.ts:267-270): point read of the primary key;
`none` models an entry whose value is `null`. -/
def Model.find (m : Model) (s : Store) (i : String) : Option KvValue :=
  kvGet s (m.key, some i)

/-- `Model.findAll` (src/lib/model.ts:272-274): `kv.list` over all keys whose
first part is the collection key. -/
def Model.findAll (m : Model) (s : Store) : List (Key × KvValue) :=
  s.filter (fun e => e.1.1 == m.key)

/-- `Model.findByIndex` (src/lib/model.ts:276-289).  Outer `none`: the index
entry was absent (`!id.value`) and the function returned `undefined`.
Otherwise the result is the second `kv.get` on the primary key, whose value
may itself be `null` (`some none`).  If the index key somehow held a
non-string (unreachable through this module), the primary lookup is keyed by
a value that matches no stored key. -/
def Model.findByIndex (m : Model) (s : Store) (f : String) (w : Option String) :
    Option (Option KvValue) :=
  match kvGet s (m.key ++ "_by_" ++ f, w) with
  | none => none
  | some (.str i) => some (kvGet s (m.key, some i))
  | some (.obj _) => some none

/-- `Model.update` (src/lib/model.ts:291-305).  In the source `kv.get(key)`
is not awaited, so `data` is a Promise object: it is always truthy (the
`if (!data) return` branch is dead) and object-spreading it contributes no
fields, so `newData` holds exactly the fields of the given partial value.
The write is a plain `kv.set`, not an atomic transaction, and no index key
is touched.  The returned value is the `kv.set` commit result; the dead
branch would have returned `undefined` (`none`). -/
def Model.update (m : Model) (s : Store) (i : String) (value : Obj) :
    Store × Option CommitResult :=
  (kvSet s (m.key, some i) (.obj value), some ⟨true⟩)

/-- Field read `data.value[index]` in `Model.delete`: on a record object an
ordinary property read; on a stored id string, indexing by a field name
yields `undefined`. -/
def KvValue.fieldGet : KvValue → String → Option String
  | .obj r, f => r.get f
  | .str _, _ => none

/-- The mutation list `Model.delete` accumulates: `kv.atomic().delete(key)`
followed by one `.delete([key + "_by_" + index, value[index]])` per declared
index, in declaration order. -/
def Model.deleteMuts (m : Model) (i : String) (r : Obj) : List Mutation :=
  m.indexes.foldl
    (fun op f => op ++ [Mutation.del (m.key ++ "_by_" ++ f, r.get f)])
    [Mutation.del (m.key, some i)]

/-- `Model.delete` (src/lib/model.ts:307-322): read the record; if the entry
value is `null` return `undefined` with the store unchanged; otherwise commit
one atomic transaction deleting the primary key and one index key per
declared index at the record's current field value. -/
def Model.delete (m : Model) (s : Store) (i : String) : Store × Option CommitResult :=
  match kvGet s (m.key, some i) with
  | none => (s, none)
  | some w =>
      (commit (m.deleteMuts i (match w with | .obj r => r | .str _ => [])) s, some ⟨true⟩)

/-- One client call against the store. -/
inductive Op
  | create (i : String) (v : Obj)
  | update (i : String) (v : Obj)
  | del (i : String)

/-- Whether an op is an update call. -/
def Op.isUpdate : Op → Bool
  | .update _ _ => true
  | _ => false

/-- Apply one call's store effect. -/
def Model.step (m : Model) (s : Store) : Op → Store
  | .create i v => (m.create s i v).1
  | .update i v => (m.update s i v).1
  | .del i => (m.delete s i).1

/-- Run a sequence of calls left to right. -/
def Model.runOps (m : Model) (ops : List Op) (s : Store) : Store :=
  ops.foldl m.step s

/-- The create calls of a sequence, in order. -/
def createsOf (ops : List Op) : List (String × Obj) :=
  ops.filterMap (fun o => match o with | .create i v => some (i, v) | _ => none)

/-- The spec's index invariant (§3): every live record's indexed field value
has its index entry pointing back at that record (keys are unique in every
reachable store, so this is the "exactly one" reading), and no index entry
points at an absent record. -/
def indexInvariant (m : Model) (s : Store) : Prop :=
  (∀ i r f, kvGet s (m.key, some i) = some (.obj r) → f ∈ m.indexes →
      kvGet s (m.key ++ "_by_" ++ f, r.get f) = some (.str i))
  ∧ (∀ f w i, f ∈ m.indexes → kvGet s (m.key ++ "_by_" ++ f, w) = some (.str i) →
      ∃ r, kvGet s (m.key, some i) = some (.obj r))

/-- The primary entry a create call leaves in the store. -/
def entryOf (m : Model) (c : String × Obj) : Key × KvValue :=
  ((m.key, some c.1), .obj (withId c.2 c.1))

/-- Abstraction used to prove the index invariant: `L` lists the live
records (most recently created first); `describes m L s` says the store's
primary and index keyspaces are exactly the ones `L` induces. -/
def describes (m : Model) (L : List (String × Obj)) (s : Store) : Prop :=
  (∀ j, kvGet s (m.key, some j)
      = (L.find? (fun p => p.1 == j)).map (fun p => KvValue.obj (withId p.2 p.1)))
  ∧ (∀ f, f ∈ m.indexes → ∀ w, kvGet s (m.key ++ "_by_" ++ f, w)
      = (L.find? (fun p => p.2.get f == w)).map (fun p => KvValue.str p.1))

/-- The effect of one call on the abstract list of live records. -/
def Lstep (L : List (String × Obj)) : Op → List (String × Obj)
  | .create i v => (i, v) :: L
  | .update _ _ => L
  | .del i => L.filter (fun p => p.1 != i)

/-- Run the abstract effect of a call sequence. -/
def runL (ops : List Op) (L : List (String × Obj)) : List (String × Obj) :=
  ops.foldl Lstep L

/-- Well-formedness of the abstract live list: distinct ids and, per indexed
field, distinct values. -/
def goodL (m : Model) (L : List (String × Obj)) : Prop :=
  (L.map (fun p => p.1)).Nodup
  ∧ ∀ f, f ∈ m.indexes → (L.map (fun p => p.2.get f)).Nodup

/-- The create calls of a sequence are fresh with respect to the live list:
new ids and, per indexed field, new values. -/
def opsFresh (m : Model) (L : List (String × Obj)) (ops : List Op) : Prop :=
  ∀ i v, Op.create i v ∈ ops →
    i ∉ L.map (fun p => p.1)
    ∧ ∀ f, f ∈ m.indexes → v.get f ∉ L.map (fun p => p.2.get f)

/-- Fixture: a collection indexed on `email`. -/
def mUser : Model := { key := "user", indexes := ["email"] }

/-- Fixture: a collection with no indexes. -/
def mPlain : Model := { key := "t", indexes := [] }

/-- Fixture: one record with email `"e"`. -/
def sOne : Store := (mUser.create [] "id1" [("email", "e")]).1

/-- Fixture: a second record with the same email `"e"`. -/
def sTwo : Store := (mUser.create sOne "id2" [("email", "e")]).1

/-- Fixture: the store after updating the record to email `"z"`. -/
def sUpd : Store := (mUser.update sOne "id1" [("email", "z")]).1

/-- Fixture: an unindexed record `{a: 1, b: 2}`. -/
def sAB : Store := (mPlain.create [] "r1" [("a", "1"), ("b", "2")]).1

/-- Fixture: the store after updating that record with `{a: 9}`. -/
def sABupd : Store := (mPlain.update sAB "r1" [("a", "9")]).1

/-! ### Generic list lemmas -/

theorem find?_filter_imp {α : Type} (l : List α) (p q : α → Bool)
    (h : ∀ a ∈ l, p a = true → q a = true) : (l.filter q).find? p = l.find? p := by
  induction l with
  | nil => rfl
  | cons a t ih =>
    have ht : ∀ b ∈ t, p b = true → q b = true :=
      fun b hb => h b (List.mem_cons_of_mem _ hb)
    by_cases hq : q a = true
    · rw [List.filter_cons_of_pos hq]
      by_cases hp : p a = true
      · rw [List.find?_cons_of_pos _ hp, List.find?_cons_of_pos _ hp]
      · rw [List.find?_cons_of_neg _ hp, List.find?_cons_of_neg _ hp, ih ht]
    · rw [List.filter_cons_of_neg hq]
      have hp : ¬ p a = true := fun hpa => hq (h a (List.mem_cons_self _ _) hpa)
      rw [List.find?_cons_of_neg _ hp, ih ht]

theorem find?_filter_not {α : Type} (l : List α) (p q : α → Bool)
    (h : ∀ a ∈ l, p a = true → q a = false) : (l.filter q).find? p = none := by
  rw [List.find?_eq_none]
  intro x hx hpx
  have hqx := List.of_mem_filter hx
  rw [h x (List.mem_of_mem_filter hx) hpx] at hqx
  exact Bool.false_ne_true hqx

theorem foldl_append_map {α β : Type} (g : α → β) (l : List α) (init : List β) :
    l.foldl (fun acc x => acc ++ [g x]) init = init ++ l.map g := by
  induction l generalizing init with
  | nil => simp
  | cons a t ih => simp [ih]

theorem filter_comm' {α : Type} (l : List α) (p q : α → Bool) :
    (l.filter p).filter q = (l.filter q).filter p := by
  rw [List.filter_filter, List.filter_filter]
  exact List.filter_congr (fun a _ => Bool.and_comm _ _)

theorem find?_eq_some_of_unique {α : Type} (l : List α) (p : α → Bool) (a : α)
    (ha : a ∈ l) (hp : p a = true) (hu : ∀ b ∈ l, p b = true → b = a) :
    l.find? p = some a := by
  induction l with
  | nil => cases ha
  | cons x t ih =>
    by_cases hx : p x = true
    · rw [List.find?_cons_of_pos _ hx]
      rw [hu x (List.mem_cons_self _ _) hx]
    · rw [List.find?_cons_of_neg _ hx]
      rcases List.mem_cons.mp ha with rfl | hat
      · exact absurd hp hx
      · exact ih hat (fun b hb hpb => hu b (List.mem_cons_of_mem _ hb) hpb)

/-! ### String key lemmas: the index keyspace name never collides with the
collection name, and determines the field. -/

theorem key_by_ne (k f : String) : k ++ "_by_" ++ f ≠ k := by
  intro he
  have hl := congrArg String.length he
  rw [String.length_append, String.length_append] at hl
  have h4 : ("_by_" : String).length = 4 := rfl
  omega

theorem key_by_inj (k f1 f2 : String) (h : k ++ "_by_" ++ f1 = k ++ "_by_" ++ f2) :
    f1 = f2 := by
  have hd := congrArg String.data h
  simp only [String.data_append, List.append_assoc, List.append_cancel_left_eq] at hd
  exact String.ext hd

/-! ### Store access lemmas -/

theorem kvGet_set_self (s : Store) (k : Key) (v : KvValue) :
    kvGet (kvSet s k v) k = some v := by
  unfold kvGet kvSet
  rw [List.find?_cons_of_pos _ (by simp)]
  rfl

theorem kvGet_set_ne (s : Store) (k k' : Key) (v : KvValue) (h : k' ≠ k) :
    kvGet (kvSet s k v) k' = kvGet s k' := by
  unfold kvGet kvSet
  rw [List.find?_cons_of_neg _ (by simp; exact Ne.symm h)]
  rw [find?_filter_imp]
  intro a _ ha
  simp only [beq_iff_eq] at ha
  simp only [bne_iff_ne, ne_eq]
  rw [ha]
  exact h

theorem kvGet_del_self (s : Store) (k : Key) : kvGet (kvDelete s k) k = none := by
  unfold kvGet kvDelete
  rw [find?_filter_not]
  · rfl
  · intro a _ ha
    simp only [beq_iff_eq] at ha
    simp [ha]

theorem kvGet_del_ne (s : Store) (k k' : Key) (h : k' ≠ k) :
    kvGet (kvDelete s k) k' = kvGet s k' := by
  unfold kvGet kvDelete
  rw [find?_filter_imp]
  intro a _ ha
  simp only [beq_iff_eq] at ha
  simp only [bne_iff_ne, ne_eq]
  rw [ha]
  exact h

theorem commit_cons (mu : Mutation) (ms : List Mutation) (s : Store) :
    commit (mu :: ms) s = commit ms (applyMut s mu) := rfl

theorem kvGet_commit_notmem (ms : List Mutation) (s : Store) (k : Key)
    (h : ∀ mu ∈ ms, mu.mkey ≠ k) : kvGet (commit ms s) k = kvGet s k := by
  induction ms generalizing s with
  | nil => rfl
  | cons mu t ih =>
    rw [commit_cons, ih _ (fun x hx => h x (List.mem_cons_of_mem _ hx))]
    have hk : mu.mkey ≠ k := h mu (List.mem_cons_self _ _)
    cases mu with
    | set k' v => exact kvGet_set_ne s k' k v (fun he => hk he.symm)
    | del k' => exact kvGet_del_ne s k' k (fun he => hk he.symm)

theorem kvGet_commit_dels (ks : List Key) (s : Store) (k : Key) :
    kvGet (commit (ks.map Mutation.del) s) k = if k ∈ ks then none else kvGet s k := by
  induction ks generalizing s with
  | nil => simp [commit]
  | cons a t ih =>
    rw [List.map_cons, commit_cons, ih]
    by_cases hk : k ∈ t
    · simp [hk, List.mem_cons]
    · by_cases hka : k = a
      · subst hka
        simp [List.mem_cons, hk, applyMut, kvGet_del_self]
      · simp [List.mem_cons, hka, hk, applyMut, kvGet_del_ne s a k hka]

/-! ### Shape of the transactions built by create and delete -/

theorem createMuts_eq (m : Model) (i : String) (v : Obj) :
    m.createMuts i v
      = Mutation.set (m.key, some i) (.obj (withId v i))
        :: m.indexes.map (fun f => Mutation.set (m.key ++ "_by_" ++ f, v.get f) (.str i)) := by
  unfold Model.createMuts
  rw [foldl_append_map]
  rfl

theorem deleteMuts_eq (m : Model) (i : String) (r : Obj) :
    m.deleteMuts i r
      = Mutation.del (m.key, some i)
        :: m.indexes.map (fun f => Mutation.del (m.key ++ "_by_" ++ f, r.get f)) := by
  unfold Model.deleteMuts
  rw [foldl_append_map]
  rfl

theorem deleteMuts_eq_map (m : Model) (i : String) (r : Obj) :
    m.deleteMuts i r
      = (((m.key, some i) : Key)
          :: m.indexes.map (fun f => ((m.key ++ "_by_" ++ f, r.get f) : Key))).map Mutation.del := by
  rw [deleteMuts_eq, List.map_cons, List.map_map]
  rfl

theorem create_fst (m : Model) (s : Store) (i : String) (v : Obj) :
    (m.create s i v).1 = commit (m.createMuts i v) s := rfl

theorem delete_fst_live (m : Model) (s : Store) (i : String) (r : Obj)
    (h : kvGet s (m.key, some i) = some (.obj r)) :
    (m.delete s i).1 = commit (m.deleteMuts i r) s := by
  unfold Model.delete
  rw [h]

theorem delete_fst_absent (m : Model) (s : Store) (i : String)
    (h : kvGet s (m.key, some i) = none) : (m.delete s i).1 = s := by
  unfold Model.delete
  rw [h]

/-! ### Point reads after create -/

theorem kvGet_idxSets_mem (key0 i : String) (v : Obj) (fs : List String) (s : Store)
    (f : String) (hf : f ∈ fs) :
    kvGet (commit (fs.map (fun f => Mutation.set (key0 ++ "_by_" ++ f, v.get f) (.str i))) s)
      (key0 ++ "_by_" ++ f, v.get f) = some (.str i) := by
  induction fs generalizing s with
  | nil => cases hf
  | cons a t ih =>
    rw [List.map_cons, commit_cons]
    by_cases hft : f ∈ t
    · exact ih _ hft
    · have hfa : f = a := by
        rcases List.mem_cons.mp hf with h | h
        · exact h
        · exact absurd h hft
      subst hfa
      rw [kvGet_commit_notmem]
      · exact kvGet_set_self _ _ _
      · intro mu hmu
        obtain ⟨f', hf', rfl⟩ := List.mem_map.mp hmu
        simp only [Mutation.mkey]
        intro he
        have h1 : key0 ++ "_by_" ++ f' = key0 ++ "_by_" ++ f :=
          congrArg Prod.fst he
        exact hft (key_by_inj _ _ _ h1 ▸ hf')

theorem kvGet_create_other (m : Model) (s : Store) (i : String) (v : Obj) (k : Key)
    (hprim : k ≠ (m.key, some i))
    (hidx : ∀ f ∈ m.indexes, k ≠ (m.key ++ "_by_" ++ f, v.get f)) :
    kvGet (m.create s i v).1 k = kvGet s k := by
  rw [create_fst, createMuts_eq, commit_cons]
  rw [kvGet_commit_notmem]
  · exact kvGet_set_ne s _ k _ hprim
  · intro mu hmu
    obtain ⟨f, hf, rfl⟩ := List.mem_map.mp hmu
    simp only [Mutation.mkey]
    exact fun he => hidx f hf he.symm

theorem kvGet_create_prim (m : Model) (s : Store) (i j : String) (v : Obj) :
    kvGet (m.create s i v).1 (m.key, some j)
      = if j = i then some (.obj (withId v i)) else kvGet s (m.key, some j) := by
  by_cases hj : j = i
  · subst hj
    rw [if_pos rfl, create_fst, createMuts_eq, commit_cons]
    rw [kvGet_commit_notmem]
    · exact kvGet_set_self _ _ _
    · intro mu hmu
      obtain ⟨f, hf, rfl⟩ := List.mem_map.mp hmu
      simp only [Mutation.mkey]
      intro he
      exact key_by_ne m.key f (congrArg Prod.fst he)
  · rw [if_neg hj]
    apply kvGet_create_other
    · exact fun he => hj (Option.some_inj.mp (congrArg Prod.snd he))
    · intro f hf he
      exact key_by_ne m.key f (congrArg Prod.fst he).symm

theorem kvGet_create_idx_self (m : Model) (s : Store) (i : String) (v : Obj)
    (f : String) (hf : f ∈ m.indexes) :
    kvGet (m.create s i v).1 (m.key ++ "_by_" ++ f, v.get f) = some (.str i) := by
  rw [create_fst, createMuts_eq, commit_cons]
  exact kvGet_idxSets_mem m.key i v m.indexes _ f hf

theorem kvGet_create_idx_ne (m : Model) (s : Store) (i : String) (v : Obj)
    (f : String) (w : Option String) (hw : w ≠ v.get f) :
    kvGet (m.create s i v).1 (m.key ++ "_by_" ++ f, w)
      = kvGet s (m.key ++ "_by_" ++ f, w) := by
  apply kvGet_create_other
  · intro he
    exact key_by_ne m.key f (congrArg Prod.fst he)
  · intro f' hf' he
    have h1 : m.key ++ "_by_" ++ f = m.key ++ "_by_" ++ f' := congrArg Prod.fst he
    have h2 : f = f' := key_by_inj _ _ _ h1
    subst h2
    exact hw (congrArg Prod.snd he)

theorem kvGet_create_idx_notmem (m : Model) (s : Store) (i : String) (v : Obj)
    (f : String) (w : Option String) (hf : f ∉ m.indexes) :
    kvGet (m.create s i v).1 (m.key ++ "_by_" ++ f, w)
      = kvGet s (m.key ++ "_by_" ++ f, w) := by
  apply kvGet_create_other
  · intro he
    exact key_by_ne m.key f (congrArg Prod.fst he)
  · intro f' hf' he
    have h1 : m.key ++ "_by_" ++ f = m.key ++ "_by_" ++ f' := congrArg Prod.fst he
    exact hf (key_by_inj _ _ _ h1 ▸ hf')

/-! ### Point reads after delete -/

theorem kvGet_delete_other (m : Model) (s : Store) (i : String) (k : Key)
    (hprim : k ≠ (m.key, some i))
    (hidx : ∀ f ∈ m.indexes, ∀ w : Option String, k ≠ (m.key ++ "_by_" ++ f, w)) :
    kvGet (m.delete s i).1 k = kvGet s k := by
  unfold Model.delete
  cases hg : kvGet s (m.key, some i) with
  | none => rfl
  | some wv =>
    simp only
    rw [deleteMuts_eq, commit_cons, kvGet_commit_notmem]
    · exact kvGet_del_ne s _ k hprim
    · intro mu hmu
      obtain ⟨f, hf, rfl⟩ := List.mem_map.mp hmu
      simp only [Mutation.mkey]
      exact fun he => hidx f hf _ he.symm

theorem kvGet_delete_prim_ne (m : Model) (s : Store) (i j : String) (h : j ≠ i) :
    kvGet (m.delete s i).1 (m.key, some j) = kvGet s (m.key, some j) := by
  apply kvGet_delete_other
  · intro he
    exact h (Option.some_inj.mp (congrArg Prod.snd he))
  · intro f hf w he
    exact key_by_ne m.key f (congrArg Prod.fst he).symm

theorem kvGet_delete_live (m : Model) (s : Store) (i : String) (r : Obj)
    (h : kvGet s (m.key, some i) = some (.obj r)) (k : Key)
    (hk : k ∈ (((m.key, some i) : Key)
        :: m.indexes.map (fun f => ((m.key ++ "_by_" ++ f, r.get f) : Key)))) :
    kvGet (m.delete s i).1 k = none := by
  rw [delete_fst_live m s i r h, deleteMuts_eq_map, kvGet_commit_dels, if_pos hk]

/-! ### findAll commutation lemmas: only primary-keyspace writes are visible
to the collection scan. -/

theorem findAll_kvSet_prim (m : Model) (s : Store) (k : Key) (v : KvValue)
    (hk : k.1 = m.key) :
    m.findAll (kvSet s k v) = (k, v) :: (m.findAll s).filter (fun e => e.1 != k) := by
  unfold Model.findAll kvSet
  rw [List.filter_cons_of_pos (by simp [hk])]
  rw [filter_comm']

theorem findAll_kvSet_other (m : Model) (s : Store) (k : Key) (v : KvValue)
    (hk : k.1 ≠ m.key) :
    m.findAll (kvSet s k v) = m.findAll s := by
  unfold Model.findAll kvSet
  rw [List.filter_cons_of_neg (by simp [hk])]
  rw [filter_comm']
  apply List.filter_eq_self.mpr
  intro e he
  have h1 := List.of_mem_filter he
  simp only [beq_iff_eq] at h1
  simp only [bne_iff_ne, ne_eq]
  intro hek
  exact hk (by rw [← hek]; exact h1)

theorem findAll_kvDelete_prim (m : Model) (s : Store) (k : Key) :
    m.findAll (kvDelete s k) = (m.findAll s).filter (fun e => e.1 != k) := by
  unfold Model.findAll kvDelete
  rw [filter_comm']

theorem findAll_kvDelete_other (m : Model) (s : Store) (k : Key) (hk : k.1 ≠ m.key) :
    m.findAll (kvDelete s k) = m.findAll s := by
  unfold Model.findAll kvDelete
  rw [filter_comm']
  apply List.filter_eq_self.mpr
  intro e he
  have h1 := List.of_mem_filter he
  simp only [beq_iff_eq] at h1
  simp only [bne_iff_ne, ne_eq]
  intro hek
  exact hk (by rw [← hek]; exact h1)

theorem findAll_commit_offkeys (m : Model) (ms : List Mutation) (s : Store)
    (h : ∀ mu ∈ ms, mu.mkey.1 ≠ m.key) :
    m.findAll (commit ms s) = m.findAll s := by
  induction ms generalizing s with
  | nil => rfl
  | cons mu t ih =>
    rw [commit_cons, ih _ (fun x hx => h x (List.mem_cons_of_mem _ hx))]
    have hk := h mu (List.mem_cons_self _ _)
    cases mu with
    | set k v => exact findAll_kvSet_other m s k v hk
    | del k => exact findAll_kvDelete_other m s k hk

theorem findAll_create (m : Model) (s : Store) (i : String) (v : Obj) :
    m.findAll (m.create s i v).1
      = entryOf m (i, v)
        :: (m.findAll s).filter (fun e => e.1 != ((m.key, some i) : Key)) := by
  rw [create_fst, createMuts_eq, commit_cons]
  rw [findAll_commit_offkeys]
  · exact findAll_kvSet_prim m s _ _ rfl
  · intro mu hmu
    obtain ⟨f, hf, rfl⟩ := List.mem_map.mp hmu
    simp only [Mutation.mkey]
    exact key_by_ne m.key f

theorem findAll_delete_live (m : Model) (s : Store) (i : String) (r : Obj)
    (h : kvGet s (m.key, some i) = some (.obj r)) :
    m.findAll (m.delete s i).1
      = (m.findAll s).filter (fun e => e.1 != ((m.key, some i) : Key)) := by
  rw [delete_fst_live m s i r h, deleteMuts_eq, commit_cons]
  rw [findAll_commit_offkeys]
  · exact findAll_kvDelete_prim m s _
  · intro mu hmu
    obtain ⟨f, hf, rfl⟩ := List.mem_map.mp hmu
    simp only [Mutation.mkey]
    exact key_by_ne m.key f

theorem kvGet_findAll (m : Model) (s : Store) (w : Option String) :
    kvGet (m.findAll s) (m.key, w) = kvGet s (m.key, w) := by
  unfold Model.findAll kvGet
  rw [find?_filter_imp]
  intro a _ ha
  simp only [beq_iff_eq] at ha ⊢
  rw [ha]

/-! ### Running call sequences -/

theorem runOps_cons (m : Model) (o : Op) (os : List Op) (s : Store) :
    m.runOps (o :: os) s = m.runOps os (m.step s o) := rfl

theorem runOps_append (m : Model) (a b : List Op) (s : Store) :
    m.runOps (a ++ b) s = m.runOps b (m.runOps a s) :=
  List.foldl_append _ _ _ _

theorem findAll_runCreates (m : Model) (cs : List (String × Obj)) (s : Store)
    (hnd : (cs.map (fun c => c.1)).Nodup)
    (hfresh : ∀ c ∈ cs, kvGet s (m.key, some c.1) = none) :
    m.findAll (m.runOps (cs.map (fun c => Op.create c.1 c.2)) s)
      = (cs.map (entryOf m)).reverse ++ m.findAll s := by
  induction cs generalizing s with
  | nil => simp [Model.runOps]
  | cons c t ih =>
    rw [List.map_cons, runOps_cons]
    have hstep : m.step s (Op.create c.1 c.2) = (m.create s c.1 c.2).1 := rfl
    rw [hstep]
    have hndt : (t.map (fun c => c.1)).Nodup := (List.nodup_cons.mp (by simpa using hnd)).2
    have hct : c.1 ∉ t.map (fun c => c.1) := (List.nodup_cons.mp (by simpa using hnd)).1
    rw [ih _ hndt]
    · rw [findAll_create]
      have hfilter : (m.findAll s).filter (fun e => e.1 != ((m.key, some c.1) : Key))
          = m.findAll s := by
        apply List.filter_eq_self.mpr
        intro e he
        have hes : e ∈ s := List.mem_of_mem_filter he
        have hn := hfresh c (List.mem_cons_self _ _)
        unfold kvGet at hn
        rw [Option.map_eq_none'] at hn
        rw [List.find?_eq_none] at hn
        have h2 := hn e hes
        simpa using h2
      rw [hfilter]
      simp [List.reverse_cons, List.append_assoc, entryOf]
    · intro c' hc'
      rw [kvGet_create_prim]
      have hne : c'.1 ≠ c.1 := by
        intro he
        exact hct (he ▸ List.mem_map_of_mem (fun c => c.1) hc')
      rw [if_neg hne]
      exact hfresh c' (List.mem_cons_of_mem _ hc')

theorem findAll_runDels (m : Model) (ds : List String) (s : Store)
    (hnd : ds.Nodup)
    (hlive : ∀ d ∈ ds, ∃ r, kvGet s (m.key, some d) = some (.obj r)) :
    m.findAll (m.runOps (ds.map Op.del) s)
      = (m.findAll s).filter
          (fun e => ds.all (fun d => e.1 != ((m.key, some d) : Key))) := by
  induction ds generalizing s with
  | nil => simp [Model.runOps]
  | cons d t ih =>
    obtain ⟨r, hr⟩ := hlive d (List.mem_cons_self _ _)
    rw [List.map_cons, runOps_cons]
    have hstep : m.step s (Op.del d) = (m.delete s d).1 := rfl
    rw [hstep]
    have hndt : t.Nodup := (List.nodup_cons.mp hnd).2
    have hdt : d ∉ t := (List.nodup_cons.mp hnd).1
    rw [ih _ hndt]
    · rw [findAll_delete_live m s d r hr]
      rw [List.filter_filter]
      apply List.filter_congr
      intro e he
      rw [List.all_cons]
      exact Bool.and_comm _ _
    · intro d' hd'
      rw [kvGet_delete_prim_ne m s d d' (fun he => hdt (he ▸ hd'))]
      exact hlive d' (List.mem_cons_of_mem _ hd')

theorem length_filter_mem (l d : List String) (hl : l.Nodup) (hd : d.Nodup)
    (hsub : ∀ x ∈ d, x ∈ l) :
    (l.filter (fun x => decide (x ∈ d))).length = d.length := by
  induction l generalizing d with
  | nil =>
    have hde : d = [] := List.eq_nil_iff_forall_not_mem.mpr
      (fun x hx => by cases hsub x hx)
    subst hde
    rfl
  | cons a t ih =>
    have hat : a ∉ t := (List.nodup_cons.mp hl).1
    have htnd : t.Nodup := (List.nodup_cons.mp hl).2
    by_cases had : a ∈ d
    · rw [List.filter_cons_of_pos (by simp [had])]
      have hde : ∀ y ∈ t, (decide (y ∈ d) : Bool) = decide (y ∈ d.erase a) := by
        intro y hy
        have hya : y ≠ a := fun he => hat (he ▸ hy)
        simp [List.mem_erase_of_ne hya]
      rw [List.filter_congr hde]
      have hlen : (d.erase a).length = d.length - 1 := List.length_erase_of_mem had
      have hsub' : ∀ x ∈ d.erase a, x ∈ t := by
        intro x hx
        have hxd : x ∈ d := List.mem_of_mem_erase hx
        have hxa : x ≠ a := (List.Nodup.mem_erase_iff hd |>.mp hx).1
        rcases List.mem_cons.mp (hsub x hxd) with rfl | h
        · exact absurd rfl hxa
        · exact h
      rw [List.length_cons, ih (d.erase a) htnd (hd.erase a) hsub', hlen]
      have hpos : 0 < d.length := List.length_pos.mpr (fun he => by subst he; cases had)
      omega
    · rw [List.filter_cons_of_neg (by simp [had])]
      apply ih d htnd hd
      intro x hx
      rcases List.mem_cons.mp (hsub x hx) with rfl | h
      · exact absurd hx had
      · exact h

/-! ### Reading the record built by create -/

theorem withId_get_id (v : Obj) (i : String) : (withId v i).get "id" = some i := by
  unfold withId Obj.get
  rw [List.find?_cons_of_pos _ (by simp)]
  rfl

theorem withId_get_ne (v : Obj) (i : String) (f : String) (h : f ≠ "id") :
    (withId v i).get f = v.get f := by
  unfold withId Obj.get
  rw [List.find?_cons_of_neg _ (by simp; exact Ne.symm h)]

theorem kvGet_delete_live_other (m : Model) (s : Store) (i : String) (r : Obj)
    (h : kvGet s (m.key, some i) = some (.obj r)) (k : Key)
    (hk : k ∉ (((m.key, some i) : Key)
        :: m.indexes.map (fun f => ((m.key ++ "_by_" ++ f, r.get f) : Key)))) :
    kvGet (m.delete s i).1 k = kvGet s k := by
  rw [delete_fst_live m s i r h, deleteMuts_eq_map, kvGet_commit_dels, if_neg hk]

/-! ### Preservation of the live-list abstraction -/

theorem describes_create (m : Model) (L : List (String × Obj)) (s : Store)
    (hd : describes m L s) (i : String) (v : Obj) :
    describes m ((i, v) :: L) (m.create s i v).1 := by
  constructor
  · intro j
    rw [kvGet_create_prim]
    by_cases hj : j = i
    · subst hj
      rw [if_pos rfl, List.find?_cons_of_pos _ (by simp)]
      rfl
    · rw [if_neg hj, List.find?_cons_of_neg _ (by simp; exact fun he => hj he.symm)]
      exact hd.1 j
  · intro f hf w
    by_cases hw : w = v.get f
    · subst hw
      rw [kvGet_create_idx_self m s i v f hf]
      rw [List.find?_cons_of_pos _ (by simp)]
      rfl
    · rw [kvGet_create_idx_ne m s i v f w hw]
      rw [List.find?_cons_of_neg _ (by simp; exact fun he => hw he.symm)]
      exact hd.2 f hf w

theorem describes_delete (m : Model) (L : List (String × Obj)) (s : Store)
    (hd : describes m L s) (hg : goodL m L) (hid : "id" ∉ m.indexes) (i : String) :
    describes m (L.filter (fun p => p.1 != i)) (m.delete s i).1 := by
  cases hfind : L.find? (fun p => p.1 == i) with
  | none =>
    have hnone : kvGet s (m.key, some i) = none := by
      rw [hd.1 i, hfind]
      rfl
    have hfid : L.filter (fun p => p.1 != i) = L := by
      apply List.filter_eq_self.mpr
      intro p hp
      have h1 := List.find?_eq_none.mp hfind p hp
      simpa using h1
    rw [delete_fst_absent m s i hnone, hfid]
    exact hd
  | some p =>
    have hpmem : p ∈ L := List.mem_of_find?_eq_some hfind
    have hpi : p.1 = i := by simpa using List.find?_some hfind
    have hlive : kvGet s (m.key, some i) = some (.obj (withId p.2 p.1)) := by
      rw [hd.1 i, hfind]
      rfl
    constructor
    · intro j
      by_cases hj : j = i
      · subst hj
        have hnone : (L.filter (fun p => p.1 != j)).find? (fun p => p.1 == j) = none := by
          apply find?_filter_not
          intro a _ ha
          simp only [beq_iff_eq] at ha
          simp [ha]
        rw [kvGet_delete_live m s j (withId p.2 p.1) hlive _ (List.mem_cons_self _ _), hnone]
        rfl
      · rw [kvGet_delete_prim_ne m s i j hj, hd.1 j, find?_filter_imp]
        intro a _ ha
        simp only [beq_iff_eq] at ha
        simp only [bne_iff_ne, ne_eq]
        rw [ha]
        exact hj
    · intro f hf w
      have hfid : f ≠ "id" := fun he => hid (he ▸ hf)
      have hwid : (withId p.2 p.1).get f = p.2.get f := withId_get_ne p.2 p.1 f hfid
      by_cases hw : w = p.2.get f
      · subst hw
        have hmem : ((m.key ++ "_by_" ++ f, p.2.get f) : Key)
            ∈ (((m.key, some i) : Key)
              :: m.indexes.map
                  (fun f' => ((m.key ++ "_by_" ++ f', (withId p.2 p.1).get f') : Key))) := by
          apply List.mem_cons_of_mem
          rw [List.mem_map]
          exact ⟨f, hf, by rw [hwid]⟩
        have hnone : (L.filter (fun p => p.1 != i)).find?
            (fun q => q.2.get f == p.2.get f) = none := by
          apply find?_filter_not
          intro a hamem ha
          simp only [beq_iff_eq] at ha
          have hap : a = p := List.inj_on_of_nodup_map (hg.2 f hf) hamem hpmem ha
          simp [hap, hpi]
        rw [kvGet_delete_live m s i (withId p.2 p.1) hlive _ hmem, hnone]
        rfl
      · rw [kvGet_delete_live_other m s i (withId p.2 p.1) hlive]
        · rw [hd.2 f hf w, find?_filter_imp]
          intro a hamem ha
          simp only [beq_iff_eq] at ha
          simp only [bne_iff_ne, ne_eq]
          intro hai
          have hap : a = p := List.inj_on_of_nodup_map hg.1 hamem hpmem (by rw [hai, hpi])
          exact hw (by rw [← ha, hap])
        · intro hk
          rcases List.mem_cons.mp hk with h1 | h1
          · exact key_by_ne m.key f (congrArg Prod.fst h1)
          · obtain ⟨f', hf', he⟩ := List.mem_map.mp h1
            have h2 : f = f' := key_by_inj _ _ _ (congrArg Prod.fst he.symm)
            subst h2
            have h3 : w = (withId p.2 p.1).get f := congrArg Prod.snd he.symm
            rw [hwid] at h3
            exact hw h3

theorem goodL_create (m : Model) (L : List (String × Obj)) (hg : goodL m L)
    (i : String) (v : Obj)
    (hi : i ∉ L.map (fun p => p.1))
    (hv : ∀ f, f ∈ m.indexes → v.get f ∉ L.map (fun p => p.2.get f)) :
    goodL m ((i, v) :: L) := by
  constructor
  · rw [List.map_cons, List.nodup_cons]
    exact ⟨hi, hg.1⟩
  · intro f hf
    rw [List.map_cons, List.nodup_cons]
    exact ⟨hv f hf, hg.2 f hf⟩

theorem goodL_del (m : Model) (L : List (String × Obj)) (hg : goodL m L)
    (i : String) : goodL m (L.filter (fun p => p.1 != i)) := by
  constructor
  · exact ((List.filter_sublist L).map _).nodup hg.1
  · intro f hf
    exact ((List.filter_sublist L).map _).nodup (hg.2 f hf)

theorem mem_createsOf (ops : List Op) (i : String) (v : Obj)
    (h : Op.create i v ∈ ops) : (i, v) ∈ createsOf ops := by
  unfold createsOf
  rw [List.mem_filterMap]
  exact ⟨Op.create i v, h, rfl⟩

theorem runOps_describes (m : Model) (hid : "id" ∉ m.indexes) (ops : List Op) :
    ∀ (L : List (String × Obj)) (s : Store),
    describes m L s → goodL m L → opsFresh m L ops →
    (∀ o ∈ ops, o.isUpdate = false) →
    ((createsOf ops).map (fun c => c.1)).Nodup →
    (∀ f, f ∈ m.indexes → ((createsOf ops).map (fun c => c.2.get f)).Nodup) →
    describes m (runL ops L) (m.runOps ops s) ∧ goodL m (runL ops L) := by
  induction ops with
  | nil => exact fun L s hd hg _ _ _ _ => ⟨hd, hg⟩
  | cons o t ih =>
    intro L s hd hg hfr hnoup hndid hndv
    cases o with
    | create i v =>
      have hcons : createsOf (Op.create i v :: t) = (i, v) :: createsOf t := rfl
      rw [hcons] at hndid hndv
      have hfr0 := hfr i v (List.mem_cons_self _ _)
      rw [List.map_cons] at hndid
      have hndid' := List.nodup_cons.mp hndid
      apply ih ((i, v) :: L) (m.create s i v).1
      · exact describes_create m L s hd i v
      · exact goodL_create m L hg i v hfr0.1 hfr0.2
      · intro i' v' hmem
        have hfr1 := hfr i' v' (List.mem_cons_of_mem _ hmem)
        constructor
        · rw [List.map_cons, List.mem_cons]
          rintro (h1 | h1)
          · exact hndid'.1 (h1 ▸ List.mem_map_of_mem (fun c => c.1) (mem_createsOf t i' v' hmem))
          · exact hfr1.1 h1
        · intro f hf
          have hndvf := hndv f hf
          rw [List.map_cons] at hndvf
          have hndv' := List.nodup_cons.mp hndvf
          rw [List.map_cons, List.mem_cons]
          rintro (h1 | h1)
          · exact hndv'.1
              (h1 ▸ List.mem_map_of_mem (fun c => c.2.get f) (mem_createsOf t i' v' hmem))
          · exact hfr1.2 f hf h1
      · exact fun o ho => hnoup o (List.mem_cons_of_mem _ ho)
      · exact hndid'.2
      · intro f hf
        have hndvf := hndv f hf
        rw [List.map_cons] at hndvf
        exact (List.nodup_cons.mp hndvf).2
    | update i v =>
      have := hnoup _ (List.mem_cons_self _ _)
      simp [Op.isUpdate] at this
    | del i =>
      have hcons : createsOf (Op.del i :: t) = createsOf t := rfl
      rw [hcons] at hndid hndv
      apply ih (L.filter (fun p => p.1 != i)) (m.delete s i).1
      · exact describes_delete m L s hd hg hid i
      · exact goodL_del m L hg i
      · intro i' v' hmem
        have hfr1 := hfr i' v' (List.mem_cons_of_mem _ hmem)
        constructor
        · intro h1
          apply hfr1.1
          obtain ⟨p, hp, hpe⟩ := List.mem_map.mp h1
          exact hpe ▸ List.mem_map_of_mem (fun p => p.1) (List.mem_of_mem_filter hp)
        · intro f hf h1
          apply hfr1.2 f hf
          obtain ⟨p, hp, hpe⟩ := List.mem_map.mp h1
          exact hpe ▸ List.mem_map_of_mem (fun p => p.2.get f) (List.mem_of_mem_filter hp)
      · exact fun o ho => hnoup o (List.mem_cons_of_mem _ ho)
      · exact hndid
      · exact hndv

theorem describes_invariant (m : Model) (hid : "id" ∉ m.indexes)
    (L : List (String × Obj)) (s : Store)
    (hd : describes m L s) (hg : goodL m L) : indexInvariant m s := by
  constructor
  · intro i r f hget hf
    have h1 := hd.1 i
    rw [hget] at h1
    cases hfind : L.find? (fun p => p.1 == i) with
    | none =>
      rw [hfind] at h1
      cases h1
    | some p =>
      rw [hfind] at h1
      have hrp : r = withId p.2 p.1 := by
        have h2 : KvValue.obj r = KvValue.obj (withId p.2 p.1) := by simpa using h1
        cases h2
        rfl
      have hpi : p.1 = i := by simpa using List.find?_some hfind
      have hpm : p ∈ L := List.mem_of_find?_eq_some hfind
      have hfid : f ≠ "id" := fun he => hid (he ▸ hf)
      rw [hrp, withId_get_ne _ _ _ hfid]
      rw [hd.2 f hf (p.2.get f)]
      rw [find?_eq_some_of_unique L _ p hpm (by simp)]
      · simp [hpi]
      · intro b hbm hb
        simp only [beq_iff_eq] at hb
        exact List.inj_on_of_nodup_map (hg.2 f hf) hbm hpm hb
  · intro f w i hf hget
    have h2 := hd.2 f hf w
    rw [hget] at h2
    cases hfind : L.find? (fun p => p.2.get f == w) with
    | none =>
      rw [hfind] at h2
      cases h2
    | some p =>
      rw [hfind] at h2
      have hpi : p.1 = i := by
        have h3 : KvValue.str i = KvValue.str p.1 := by simpa using h2
        cases h3
        rfl
      have hpm : p ∈ L := List.mem_of_find?_eq_some hfind
      have h3 := hd.1 i
      cases hfind2 : L.find? (fun q => q.1 == i) with
      | none =>
        have h4 := List.find?_eq_none.mp hfind2 p hpm
        simp [hpi] at h4
      | some q =>
        rw [hfind2] at h3
        exact ⟨withId q.2 q.1, by simpa using h3⟩

theorem all_bne_prim (k : String) (dels : List String) (c1 : String) :
    dels.all (fun d => ((k, some c1) : Key) != (k, some d)) = !(decide (c1 ∈ dels)) := by
  induction dels with
  | nil => simp
  | cons d t ih =>
    rw [List.all_cons, ih]
    by_cases h : c1 = d
    · subst h
      simp [List.mem_cons]
    · simp [List.mem_cons, h]

/-! ### Claims -/

/-- C1, counterexample.  The index invariant fails on the code as claimed:
creating two records with the same indexed value leaves the first live record
with no index entry pointing at it (the second create overwrote the pointer),
so "every live record R holding value V at F has exactly one index entry
mapping (F, V) to R's identifier" is false after the two creates of `sTwo`. -/
theorem C1_counterexample : ¬ indexInvariant mUser sTwo := by
  intro h
  have h1 : kvGet sTwo (mUser.key, some "id1")
      = some (.obj (withId [("email", "e")] "id1")) := by decide
  have h2 := h.1 "id1" (withId [("email", "e")] "id1") "email" h1 (by decide)
  have h3 : kvGet sTwo (mUser.key ++ "_by_" ++ "email",
      (withId [("email", "e")] "id1").get "email") = some (.str "id2") := by decide
  exact absurd (h2.symm.trans h3) (by decide)

/-- C1, amended.  After any finite sequence of create/delete calls (no
update: `update` never touches the index keyspace) starting from the empty
store, in which `id` is not a declared index, the generated ids are pairwise
distinct, and for each indexed field the created values are pairwise
distinct, the index invariant holds: every live record's indexed value has
exactly one index entry pointing back at it, and no index entry targets an
absent record. -/
theorem C1_index_invariant_amended (m : Model) (ops : List Op)
    (hid : "id" ∉ m.indexes)
    (hnoup : ∀ o ∈ ops, o.isUpdate = false)
    (hndid : ((createsOf ops).map (fun c => c.1)).Nodup)
    (hndv : ∀ f, f ∈ m.indexes → ((createsOf ops).map (fun c => c.2.get f)).Nodup) :
    indexInvariant m (m.runOps ops []) := by
  have h0 : describes m [] [] := ⟨fun j => rfl, fun f _ w => rfl⟩
  have hg0 : goodL m [] := ⟨List.nodup_nil, fun f _ => List.nodup_nil⟩
  have hfr0 : opsFresh m [] ops := fun i v _ => ⟨by simp, fun f _ => by simp⟩
  obtain ⟨hd, hg⟩ := runOps_describes m hid ops [] [] h0 hg0 hfr0 hnoup hndid hndv
  exact describes_invariant m hid _ _ hd hg

/-- C1, witness for the amended theorem: create two records with distinct
emails, then delete the first; the invariant holds in the resulting store. -/
theorem C1_amended_witness :
    indexInvariant mUser
      (mUser.runOps
        [Op.create "a" [("email", "x")], Op.create "b" [("email", "y")], Op.del "a"] []) :=
  C1_index_invariant_amended mUser
    [Op.create "a" [("email", "x")], Op.create "b" [("email", "y")], Op.del "a"]
    (by decide) (by decide) (by decide) (by decide)

/-- C2, code bug.  The claim is the spec's intent, but `update` (missing
`await` on `kv.get`) performs no index maintenance at all: after updating
the record's email from `"e"` to `"z"`, `findByIndex` on the old value `"e"`
still returns the (rewritten) record instead of being absent, and
`findByIndex` on the new value `"z"` is absent instead of returning the
record. -/
theorem C2_update_skips_reindex :
    mUser.findByIndex sUpd "email" (some "e") = some (some (.obj [("email", "z")]))
    ∧ mUser.findByIndex sUpd "email" (some "z") = none := by decide

/-- C3, code bug.  The claim is the spec's intent, but `update` object-spreads
the un-awaited Promise, so nothing of the previous record survives: after
creating `{a:1, b:2}` and updating with `{a:9}`, the stored record is exactly
`{a:9}` — field `b` and even the record's `id` are gone, instead of the
claimed `{a:9, b:2}` plus identifier. -/
theorem C3_update_drops_fields :
    mPlain.find sABupd "r1" = some (.obj [("a", "9")])
    ∧ Obj.get [("a", "9")] "b" = none
    ∧ Obj.get [("a", "9")] "id" = none := by decide

/-- C4, code bug.  The claim is the spec's intent, but `update`'s not-found
check `if (!data)` tests a Promise and is dead code: updating a nonexistent
id writes a record fabricated from the partial value alone (the findAll
snapshot grows from 0 to 1 entries) and returns a successful commit result,
never a not-found signal. -/
theorem C4_update_fabricates :
    (mUser.update [] "ghost" [("a", "9")]).1
      = [((("user" : String), some "ghost"), .obj [("a", "9")])]
    ∧ (mUser.update [] "ghost" [("a", "9")]).2 = some ⟨true⟩
    ∧ (mUser.findAll (mUser.update [] "ghost" [("a", "9")]).1).length = 1 := by decide

/-- C5, counterexample.  `create` does not return the committed record with
its generated identifier: it returns the bare commit result of
`op.commit()`, which is identical for different values and different
generated ids, so the caller cannot obtain "the identifier in create's
result". -/
theorem C5_counterexample :
    (mUser.create [] "id1" [("email", "e")]).2
      = (mUser.create [] "id2" [("name", "n")]).2
    ∧ (mUser.create [] "id1" [("email", "e")]).2 = ⟨true⟩ := by decide

/-- C5, amended.  `create` returns only the commit result, but the committed
state satisfies the round-trip the claim aims at: after `create` with
generated id `i` and value `v`, `find` on `i` returns the stored record
`{...v, id: i}`, whose `id` field is `i` and whose other fields equal `v`'s. -/
theorem C5_roundtrip (m : Model) (s : Store) (i : String) (v : Obj) :
    m.find (m.create s i v).1 i = some (.obj (withId v i))
    ∧ (withId v i).get "id" = some i
    ∧ ∀ f, f ≠ "id" → (withId v i).get f = v.get f := by
  refine ⟨?_, withId_get_id v i, fun f hf => withId_get_ne v i f hf⟩
  unfold Model.find
  rw [kvGet_create_prim, if_pos rfl]

/-- C5, witness for the amended round-trip at a concrete input. -/
theorem C5_roundtrip_witness :
    mUser.find (mUser.create [] "id9" [("email", "w")]).1 "id9"
      = some (.obj (withId [("email", "w")] "id9"))
    ∧ (withId [("email", "w")] "id9").get "email" = some "w" :=
  ⟨(C5_roundtrip mUser [] "id9" [("email", "w")]).1,
   (C5_roundtrip mUser [] "id9" [("email", "w")]).2.2 "email" (by decide)⟩

/-- C6, confirmed.  `create` builds a single atomic transaction consisting of
the primary write of `{...v, id: i}` under `(collectionName, recordId)` and,
for every declared indexed field `f`, an index write of the record id under
`(collectionName + "_by_" + f, v[f])`; the store effect is exactly one
commit of that mutation list, and the stored record's `id` field is the
generated id. -/
theorem C6_create_layout (m : Model) (s : Store) (i : String) (v : Obj) :
    m.createMuts i v
      = Mutation.set (m.key, some i) (.obj (withId v i))
        :: m.indexes.map (fun f => Mutation.set (m.key ++ "_by_" ++ f, v.get f) (.str i))
    ∧ (m.create s i v).1 = commit (m.createMuts i v) s
    ∧ (withId v i).get "id" = some i :=
  ⟨createMuts_eq m i v, rfl, withId_get_id v i⟩

/-- C7, confirmed.  Deleting a live record commits one atomic transaction
that deletes the primary entry and, for every declared indexed field, the
index entry at the record's current value; afterwards `find` on the id is
absent and `findByIndex` on every indexed field at the record's value is
absent. -/
theorem C7_delete_removes (m : Model) (s : Store) (i : String) (r : Obj)
    (h : kvGet s (m.key, some i) = some (.obj r)) :
    (m.delete s i).1 = commit (m.deleteMuts i r) s
    ∧ m.find (m.delete s i).1 i = none
    ∧ ∀ f, f ∈ m.indexes → m.findByIndex (m.delete s i).1 f (r.get f) = none := by
  refine ⟨delete_fst_live m s i r h, ?_, ?_⟩
  · unfold Model.find
    exact kvGet_delete_live m s i r h _ (List.mem_cons_self _ _)
  · intro f hf
    have hnone : kvGet (m.delete s i).1 (m.key ++ "_by_" ++ f, r.get f) = none := by
      apply kvGet_delete_live m s i r h
      exact List.mem_cons_of_mem _ (List.mem_map_of_mem _ hf)
    unfold Model.findByIndex
    rw [hnone]

/-- C7, witness: deleting the one live record of `sOne`. -/
theorem C7_witness :
    (mUser.delete sOne "id1").1
      = commit (mUser.deleteMuts "id1" (withId [("email", "e")] "id1")) sOne
    ∧ mUser.find (mUser.delete sOne "id1").1 "id1" = none
    ∧ ∀ f, f ∈ mUser.indexes →
        mUser.findByIndex (mUser.delete sOne "id1").1 f
          ((withId [("email", "e")] "id1").get f) = none :=
  C7_delete_removes mUser sOne "id1" (withId [("email", "e")] "id1") (by decide)

/-- C8, counterexample.  `delete` does not skip a missing optional indexed
field: for a record lacking `email`, the transaction still contains an
index-entry deletion whose key is built from the missing value
(`undefined`), contradicting "issues no index-entry deletion for that field". -/
theorem C8_counterexample :
    Obj.get [("name", "n")] "email" = none
    ∧ Mutation.del (("user_by_email" : String), (none : Option String))
        ∈ mUser.deleteMuts "id1" [("name", "n")] := by decide

/-- C8, amended.  `delete` issues an index-entry deletion for every declared
indexed field, keyed by the record's current value at that field — including,
for a record lacking the field, a key built from the missing value — along
with the primary deletion, all in the same transaction. -/
theorem C8_delete_every_index (m : Model) (i : String) (r : Obj) :
    m.deleteMuts i r
      = Mutation.del (m.key, some i)
        :: m.indexes.map (fun f => Mutation.del (m.key ++ "_by_" ++ f, r.get f)) :=
  deleteMuts_eq m i r

/-- C9, confirmed.  `findByIndex` returns an absent result both when the
index entry is missing (the function returns `undefined`) and when the index
entry holds an identifier whose primary record is absent (the second
`kv.get` yields a null-valued entry); the dangling identifier itself is
never returned as the result. -/
theorem C9_findByIndex_absent (m : Model) (s : Store) (f : String) (w : Option String) :
    (kvGet s (m.key ++ "_by_" ++ f, w) = none → m.findByIndex s f w = none)
    ∧ (∀ i, kvGet s (m.key ++ "_by_" ++ f, w) = some (.str i) →
        kvGet s (m.key, some i) = none →
        m.findByIndex s f w = some none) := by
  constructor
  · intro h
    unfold Model.findByIndex
    rw [h]
  · intro i h1 h2
    unfold Model.findByIndex
    rw [h1]
    show some (kvGet s (m.key, some i)) = some none
    rw [h2]

/-- C9, witness: the empty store, and a store holding a dangling index entry. -/
theorem C9_witness :
    mUser.findByIndex [] "email" (some "e") = none
    ∧ mUser.findByIndex
        [((("user_by_email" : String), some "e"), KvValue.str "ghost")]
        "email" (some "e") = some none :=
  ⟨(C9_findByIndex_absent mUser [] "email" (some "e")).1 (by decide),
   (C9_findByIndex_absent mUser
      [((("user_by_email" : String), some "e"), KvValue.str "ghost")]
      "email" (some "e")).2 "ghost" (by decide) (by decide)⟩

/-- C10, confirmed.  After N creates with pairwise-distinct generated ids
followed by M deletes of distinct, previously created ids, the collection
scan yields exactly N − M entries, all of them primary records (each is the
`entryOf` entry of a surviving create — index entries are never yielded),
with pairwise-distinct ids, each equal to its last-written value
`{...v, id}`. -/
theorem C10_findAll_live (m : Model) (creates : List (String × Obj)) (dels : List String)
    (hnd : (creates.map (fun c => c.1)).Nodup)
    (hdnd : dels.Nodup)
    (hsub : ∀ d ∈ dels, d ∈ creates.map (fun c => c.1)) :
    (m.findAll (m.runOps
        (creates.map (fun c => Op.create c.1 c.2) ++ dels.map Op.del) [])).length
      = creates.length - dels.length
    ∧ ((m.findAll (m.runOps
        (creates.map (fun c => Op.create c.1 c.2) ++ dels.map Op.del) [])).map
          (fun e => e.1.2)).Nodup
    ∧ ∀ e ∈ m.findAll (m.runOps
        (creates.map (fun c => Op.create c.1 c.2) ++ dels.map Op.del) []),
        ∃ c, c ∈ creates ∧ c.1 ∉ dels ∧ e = entryOf m c := by
  rw [runOps_append]
  have hA : m.findAll (m.runOps (creates.map (fun c => Op.create c.1 c.2)) [])
      = (creates.map (entryOf m)).reverse := by
    rw [findAll_runCreates m creates [] hnd (fun c _ => rfl)]
    simp [Model.findAll]
  have hlive : ∀ d ∈ dels, ∃ r,
      kvGet (m.runOps (creates.map (fun c => Op.create c.1 c.2)) [])
        (m.key, some d) = some (.obj r) := by
    intro d hd
    obtain ⟨c, hc, hcd⟩ := List.mem_map.mp (hsub d hd)
    have hk : kvGet (m.runOps (creates.map (fun c => Op.create c.1 c.2)) [])
        (m.key, some d) = kvGet ((creates.map (entryOf m)).reverse) (m.key, some d) := by
      rw [← kvGet_findAll m _ (some d), hA]
    cases hfind : ((creates.map (entryOf m)).reverse).find?
        (fun e => e.1 == ((m.key, some d) : Key)) with
    | none =>
      exfalso
      have hm : entryOf m c ∈ (creates.map (entryOf m)).reverse := by
        rw [List.mem_reverse]
        exact List.mem_map_of_mem _ hc
      exact (List.find?_eq_none.mp hfind _ hm) (by simp [entryOf, hcd])
    | some e =>
      have hem : e ∈ (creates.map (entryOf m)).reverse := List.mem_of_find?_eq_some hfind
      rw [List.mem_reverse] at hem
      obtain ⟨c', _, rfl⟩ := List.mem_map.mp hem
      refine ⟨withId c'.2 c'.1, ?_⟩
      rw [hk]
      unfold kvGet
      rw [hfind]
      rfl
  rw [findAll_runDels m dels _ hdnd hlive, hA, List.filter_reverse, List.filter_map]
  have hfc : creates.filter
        ((fun e => dels.all (fun d => e.1 != ((m.key, some d) : Key))) ∘ entryOf m)
      = creates.filter (fun c => !(decide (c.1 ∈ dels))) :=
    List.filter_congr (fun c _ => all_bne_prim m.key dels c.1)
  rw [hfc]
  have hcnt : (creates.filter (fun c => decide (c.1 ∈ dels))).length = dels.length := by
    have h1 : ((creates.map (fun c => c.1)).filter (fun x => decide (x ∈ dels)))
        = (creates.filter ((fun x => decide (x ∈ dels)) ∘ (fun c => c.1))).map
            (fun c => c.1) := List.filter_map _ _
    have h2 := length_filter_mem (creates.map (fun c => c.1)) dels hnd hdnd hsub
    rw [h1, List.length_map] at h2
    have h3 : creates.filter ((fun x => decide (x ∈ dels)) ∘ (fun c => c.1))
        = creates.filter (fun c => decide (c.1 ∈ dels)) :=
      List.filter_congr (fun c _ => rfl)
    rw [h3] at h2
    exact h2
  refine ⟨?_, ?_, ?_⟩
  · rw [List.length_reverse, List.length_map]
    have htot := creates.length_eq_length_filter_add (fun c => decide (c.1 ∈ dels))
    have hbeta : (creates.filter fun a => !((fun c => decide (c.1 ∈ dels)) a))
        = creates.filter (fun c => !(decide (c.1 ∈ dels))) := rfl
    rw [hbeta] at htot
    omega
  · rw [List.map_reverse, List.nodup_reverse, List.map_map]
    show ((creates.filter (fun c => !(decide (c.1 ∈ dels)))).map
      (fun c => some c.1)).Nodup
    have hsl : ((creates.filter (fun c => !(decide (c.1 ∈ dels)))).map
          (fun c => some c.1)).Sublist (creates.map (fun c => some c.1)) :=
      (List.filter_sublist creates).map _
    apply hsl.nodup
    have h5 : ((creates.map (fun c => c.1)).map some).Nodup :=
      hnd.map (fun a b => Option.some_inj.mp)
    have h6 : (creates.map (fun c => c.1)).map some = creates.map (fun c => some c.1) := by
      rw [List.map_map]
      rfl
    rw [← h6]
    exact h5
  · intro e he
    rw [List.mem_reverse] at he
    obtain ⟨c, hcF, rfl⟩ := List.mem_map.mp he
    have h4 := List.mem_filter.mp hcF
    refine ⟨c, h4.1, ?_, rfl⟩
    simpa using h4.2

/-- C10, witness: two creates and one delete leave one record. -/
theorem C10_witness :
    (mUser.findAll (mUser.runOps
        ([("a", [("email", "x")]), ("b", [("email", "y")])].map
            (fun c => Op.create c.1 c.2) ++ ["a"].map Op.del) [])).length
      = [("a", [("email", "x")]), ("b", [("email", "y")])].length - ["a"].length
    ∧ ((mUser.findAll (mUser.runOps
        ([("a", [("email", "x")]), ("b", [("email", "y")])].map
            (fun c => Op.create c.1 c.2) ++ ["a"].map Op.del) [])).map
          (fun e => e.1.2)).Nodup
    ∧ ∀ e ∈ mUser.findAll (mUser.runOps
        ([("a", [("email", "x")]), ("b", [("email", "y")])].map
            (fun c => Op.create c.1 c.2) ++ ["a"].map Op.del) []),
        ∃ c, c ∈ [("a", [("email", "x")]), ("b", [("email", "y")])]
          ∧ c.1 ∉ ["a"] ∧ e = entryOf mUser c :=
  C10_findAll_live mUser [("a", [("email", "x")]), ("b", [("email", "y")])] ["a"]
    (by decide) (by decide) (by decide)

end Kvx
